import Mathlib

/-!
Verification of the MCTS search core (`src/mcts/search.cc`) of the lc0
engine. The sections below give a shallow embedding of the data model and
the operations of the search: machine integers are modelled as `Nat`/`Int`
(the counters involved stay far below any overflow boundary), `float`
values carrying game values, priors and scores are modelled as `Rat`, and
the pointer-linked tree is modelled either as an index-based pool
(`NodePool`) or as an inductive tree, whichever is closer to the access
pattern of the embedded routine. Loops that follow parent pointers carry a
`fuel` argument bounding the number of steps (the C++ walks are bounded by
the tree depth).
-/

/-! ## Node pool (mcts/node.h usage as seen from search.cc)

A `PoolNode` holds the fields of `Node` that `search.cc` reads or writes.
The first-child/next-sibling chain of the source is represented as the list
of child indices in sibling order; `parent` is the parent's index in the
pool (`none` for a node without a parent). -/

structure PoolNode where
  parent : Option Nat := none
  children : List Nat := []
  n : Nat := 0
  n_in_flight : Int := 0
  w : Rat := 0
  q : Rat := 0
  p : Rat := 0
  v : Rat := 0
  is_terminal : Bool := false
  max_depth : Nat := 0
  full_depth : Nat := 0
deriving DecidableEq

instance : Inhabited PoolNode := ⟨{}⟩

abbrev NodePool := List PoolNode

/-- Modelled from the spec: `Node::ComputeQ` lives in mcts/node.h, which is
not among the sources; the spec defines the exploitation term as
Q(i) = q_i, 0 if unvisited. -/
def PoolNode.computeQ (nd : PoolNode) : Rat :=
  if nd.n = 0 then 0 else nd.q

/-- Modelled from the spec: `Node::ComputeU` lives in mcts/node.h, which is
not among the sources; the spec defines the exploration term as
U(i) = p_i / (1 + n_i + n_in_flight_i). -/
def PoolNode.computeU (nd : PoolNode) : Rat :=
  nd.p / (1 + (nd.n : Rat) + (nd.n_in_flight : Rat))

/-! ## Backup (Search::Worker, search.cc lines 183-229) -/

/-- The per-node statistics update of one backup hop (lines 193-200):
`w += v`, `++n`, `--n_in_flight`, `q = w / n`. -/
def backupUpdate (nd : PoolNode) (v : Rat) : PoolNode :=
  let w := nd.w + v
  let n := nd.n + 1
  { nd with w := w, n := n, n_in_flight := nd.n_in_flight - 1, q := w / (n : Rat) }

/-- The child minimization of the full-depth update (lines 211-215): starting
from the running `cur_full_depth`, lower it to any smaller child
`full_depth`. -/
def minChildFullDepth (pool : NodePool) (cur : Nat) (children : List Nat) : Nat :=
  children.foldl
    (fun acc ci =>
      if (pool.getD ci default).full_depth < acc then (pool.getD ci default).full_depth
      else acc)
    cur

/-- State threaded through a backup: the node pool and `best_move_node_`. -/
structure BackupState where
  pool : NodePool
  best_move_node : Option Nat
deriving DecidableEq

/-- The loop variables of the backup walk after one hop: the updated state,
the next node (`n = n->parent`), the negated value, and the depth /
full-depth bookkeeping. -/
structure BackupHop where
  st : BackupState
  next : Option Nat
  v : Rat
  depth : Nat
  cfd : Nat
  fdu : Bool

/-- One iteration of the backup for-loop (lines 192-227) at node `i`: apply
`backupUpdate`, raise `max_depth`, run the full-depth update, track the
best root child, then flip the sign of `v` and move to the parent. -/
def backupHopStep (root : Nat) (i : Nat) (v : Rat) (depth cfd : Nat) (fdu : Bool)
    (st : BackupState) : BackupHop :=
  let nd := st.pool.getD i default
  let depth1 := depth + 1
  let nd1 := backupUpdate nd v
  let nd2 := if nd1.max_depth < depth1 then { nd1 with max_depth := depth1 } else nd1
  let fdRes :=
    if fdu ∧ nd2.full_depth ≤ cfd then
      let cfd1 := minChildFullDepth st.pool cfd nd2.children
      if nd2.full_depth ≤ cfd1 then
        ({ nd2 with full_depth := cfd1 + 1 }, cfd1 + 1, fdu)
      else (nd2, cfd1, false)
    else (nd2, cfd, fdu)
  let nd3 := fdRes.1
  let pool1 := st.pool.set i nd3
  let best1 :=
    if nd.parent = some root then
      match st.best_move_node with
      | none => some i
      | some b =>
        if (pool1.getD b default).n < nd3.n then some i else st.best_move_node
    else st.best_move_node
  ⟨⟨pool1, best1⟩, nd.parent, -v, depth1, fdRes.2.1, fdRes.2.2⟩

/-- The backup walk (lines 191-228): starting at the processed leaf, walk the
parent chain and stop on reaching `root_node_->parent` (possibly null),
performing `backupHopStep` at every node. `fuel` bounds the walk (the C++
walk is bounded by the tree depth); `root` is the pool index of
`root_node_`. -/
def backupWalk (root : Nat) (fuel : Nat) (cur : Option Nat) (v : Rat)
    (depth cfd : Nat) (fdu : Bool) (st : BackupState) : BackupState :=
  match fuel with
  | 0 => st
  | fuel + 1 =>
    if cur = (st.pool.getD root default).parent then st
    else
      match cur with
      | none => st
      | some i =>
        let hp := backupHopStep root i v depth cfd fdu st
        backupWalk root fuel hp.next hp.v hp.depth hp.cfd hp.fdu hp.st

/-- Backup of one processed leaf (lines 183-190 set up the walk): the value is
the leaf's `v`, the depth starts at 0, and `cur_full_depth` starts at the
999 sentinel for a terminal leaf and at 0 otherwise. -/
def backupOne (root : Nat) (fuel : Nat) (leaf : Nat) (st : BackupState) : BackupState :=
  let nd := st.pool.getD leaf default
  backupWalk root fuel (some leaf) nd.v 0 (if nd.is_terminal then 999 else 0) true st

/-- The quantified invariant of the claim: every visited node's `q` is the
mean `w / n`. -/
def QInvariant (pool : NodePool) : Prop :=
  ∀ nd ∈ pool, 0 < nd.n → nd.q = nd.w / (nd.n : Rat)

instance (pool : NodePool) : Decidable (QInvariant pool) := by
  unfold QInvariant; infer_instance

/-! ## Leaf selection (Search::PickNodeToExtend, lines 443-476) -/

/-- The unwind loop of the busy path (lines 451-454): starting at the parent
of the reserved node, decrement `n_in_flight` on every node of the parent
chain until `root_node_->parent` is reached. -/
def unwindInFlight (root : Nat) (fuel : Nat) (cur : Option Nat) (pool : NodePool) : NodePool :=
  match fuel with
  | 0 => pool
  | fuel + 1 =>
    if cur = (pool.getD root default).parent then pool
    else
      match cur with
      | none => pool
      | some i =>
        let nd := pool.getD i default
        unwindInFlight root fuel nd.parent
          (pool.set i { nd with n_in_flight := nd.n_in_flight - 1 })

/-- The indices the unwind loop visits: the parent chain from `cur` until
`root_node_->parent`, cut off by `fuel`. -/
def ancestorChain (root : Nat) (fuel : Nat) (cur : Option Nat) (pool : NodePool) : List Nat :=
  match fuel with
  | 0 => []
  | fuel + 1 =>
    if cur = (pool.getD root default).parent then []
    else
      match cur with
      | none => []
      | some i => i :: ancestorChain root fuel (pool.getD i default).parent pool

/-- Result of one iteration of the selection loop: the busy signal (the C++
returns `nullptr`), a reserved leaf, or a descent into a child. -/
inductive PickResult where
  | busy (pool : NodePool)
  | leaf (pool : NodePool) (idx : Nat)
  | descend (pool : NodePool) (idx : Nat)
deriving DecidableEq

/-- The reservation of line 457: `++node->n_in_flight`. -/
def reserveInc (pool : NodePool) (i : Nat) : NodePool :=
  pool.set i { pool.getD i default with
    n_in_flight := (pool.getD i default).n_in_flight + 1 }

/-- The descent score of line 469: `factor * iter->ComputeU() +
iter->ComputeQ()` for the child at pool index `ci`. -/
def puctScore (factor : Rat) (pool : NodePool) (ci : Nat) : Rat :=
  factor * (pool.getD ci default).computeU + (pool.getD ci default).computeQ

/-- One iteration of the `while (true)` loop of `Search::PickNodeToExtend`
(lines 444-475). `factorOf n` stands for `kCpuct * sqrt(n + 1)` (line 466),
supplied as a function because the square root is irrational; `unwindFuel`
bounds the unwind walk of the busy path. -/
def pickStep (factorOf : Nat → Rat) (root : Nat) (unwindFuel : Nat)
    (pool : NodePool) (i : Nat) : PickResult :=
  let nd := pool.getD i default
  if nd.n = 0 ∧ 0 < nd.n_in_flight then
    .busy (unwindInFlight root unwindFuel nd.parent pool)
  else
    let pool1 := reserveInc pool i
    if nd.children = [] then .leaf pool1 i
    else
      let factor := factorOf nd.n
      let best := nd.children.foldl
        (fun acc ci =>
          if acc.1 < puctScore factor pool1 ci then (puctScore factor pool1 ci, ci) else acc)
        ((-100 : Rat), i)
      .descend pool1 best.2

/-- The full selection loop: iterate `pickStep` until it reserves a leaf or
returns the busy signal; `fuel` bounds the descent depth. -/
def pickNodeToExtend (factorOf : Nat → Rat) (root : Nat) (fuel : Nat)
    (pool : NodePool) (i : Nat) : NodePool × Option Nat :=
  match fuel with
  | 0 => (pool, none)
  | fuel + 1 =>
    match pickStep factorOf root (fuel + 1) pool i with
    | .busy pool1 => (pool1, none)
    | .leaf pool1 j => (pool1, some j)
    | .descend pool1 j => pickNodeToExtend factorOf root fuel pool1 j

/-! ## Leaf expansion (Search::ExtendNode, lines 382-441)

The board rules engine is an external collaborator (chess/board.h is not
among the sources); it is abstracted as `BoardApi`, carrying exactly the
operations `ExtendNode` invokes on it. -/

/-- One entry of `board.GenerateValidMoves()`: the move, the resulting board,
and whether the move resets the 50-move counter. -/
structure ValidMove (Board : Type) where
  move : Nat
  board : Board
  reset_50_moves : Bool

/-- The board-engine operations `ExtendNode` uses. -/
structure BoardApi (Board : Type) where
  generateValidMoves : Board → List (ValidMove Board)
  isUnderCheck : Board → Bool
  hasMatingMaterial : Board → Bool
  mirror : Board → Board

/-- A child allocated by `ExtendNode` (lines 422-439): parent linkage is
implicit (the children belong to the extended node), the board is the
move's board mirrored, and the rule counters are advanced. -/
structure ExtChild (Board : Type) where
  move : Nat
  board : Board
  no_capture_ply : Nat
  ply_count : Nat

/-- The node fields `ExtendNode` reads and writes. -/
structure ENode (Board : Type) where
  board : Board
  no_capture_ply : Nat
  ply_count : Nat
  repetitions : Nat
  is_terminal : Bool
  v : Rat
  children : List (ExtChild Board)

/-- `Search::ExtendNode` (lines 382-441). `computedRepetitions` stands for
`node->ComputeRepetitions()` (mcts/node.h, not among the sources; the spec
reads it as the number of prior repetitions of the position). The checks
run in source order with early returns; when none fires, one child per
valid move is appended in move order. -/
def extendNode {Board : Type} (api : BoardApi Board) (computedRepetitions : Nat)
    (node : ENode Board) : ENode Board :=
  let valid_moves := api.generateValidMoves node.board
  if valid_moves.isEmpty then
    { node with is_terminal := true, v := if api.isUnderCheck node.board then 1 else 0 }
  else if ¬api.hasMatingMaterial node.board then
    { node with is_terminal := true, v := 0 }
  else if 100 ≤ node.no_capture_ply then
    { node with is_terminal := true, v := 0 }
  else if 2 ≤ computedRepetitions then
    { node with repetitions := computedRepetitions, is_terminal := true, v := 0 }
  else
    { node with
      repetitions := computedRepetitions,
      children := valid_moves.map (fun m =>
        { move := m.move,
          board := api.mirror m.board,
          no_capture_ply := if m.reset_50_moves then 0 else node.no_capture_ply + 1,
          ply_count := node.ply_count + 1 }) }

/-! ## Best move (GetBestChild, lines 307-318; GetBestMoveInternal, 531-544)

`GetBestChild` walks the child list keeping the first child whose
`n + n_in_flight` strictly exceeds the best seen so far, starting from -1.
Moves are abstract tokens (the `Mirror()` coordinate flip of the source
maps moves one-to-one and is owned by the board collaborator, so it is not
modelled). -/

inductive BNode : Type where
  | node (move : Nat) (n : Nat) (n_in_flight : Nat) (children : List BNode)

def BNode.move : BNode → Nat
  | .node m _ _ _ => m

/-- The comparison key of `GetBestChild` (line 311): `node->n +
node->n_in_flight`. -/
def BNode.visits : BNode → Nat
  | .node _ n f _ => n + f

def BNode.children : BNode → List BNode
  | .node _ _ _ c => c

/-- The scan of `GetBestChild` (lines 308-316) over the sibling list, with
the running best value (initially -1) and best node (initially null). -/
def getBestChildGo : Option BNode → Int → List BNode → Option BNode
  | best, _, [] => best
  | best, bestVal, c :: rest =>
    if bestVal < (c.visits : Int) then getBestChildGo (some c) (c.visits : Int) rest
    else getBestChildGo best bestVal rest

/-- `GetBestChild` (lines 307-318). -/
def getBestChild (parent : BNode) : Option BNode :=
  getBestChildGo none (-1) parent.children

/-- `Search::GetBestMoveInternal` (lines 531-544): empty root means no move;
otherwise the best child's move, and the ponder move is the best child's
best child's move when the best child has children. -/
def getBestMoveInternal (root : BNode) : Option (Nat × Option Nat) :=
  if root.children.isEmpty then none
  else
    match getBestChild root with
    | none => none
    | some best =>
      some (best.move,
        match getBestChild best with
        | none => none
        | some ponder => some ponder.move)

/-! ## Prefetch (Search::PrefetchIntoCache, lines 244-303) -/

/-- The node statistics the prefetcher reads. `cached` models
`cache_->ContainsKey(node->BoardHash())`: `AddNodeToCompute(node, comp,
false)` (lines 77-106) returns true exactly when the cache already holds
the node's position, and otherwise submits the node and returns false; the
submission itself does not feed back into any value the prefetcher
computes, so the computation object is not modelled. -/
structure PFStats where
  n : Nat := 0
  n_in_flight : Int := 0
  p : Rat := 0
  q : Rat := 0
  cached : Bool := false
deriving DecidableEq

/-- Modelled from the spec: `Node::ComputeQ` (mcts/node.h, not among the
sources): Q = q, 0 if unvisited. -/
def PFStats.computeQ (s : PFStats) : Rat :=
  if s.n = 0 then 0 else s.q

/-- Modelled from the spec: `Node::ComputeU` (mcts/node.h, not among the
sources): U = p / (1 + n + n_in_flight). -/
def PFStats.computeU (s : PFStats) : Rat :=
  s.p / (1 + (s.n : Rat) + (s.n_in_flight : Rat))

/-- The subtree the prefetcher descends. -/
inductive PFTree where
  | mk (stats : PFStats) (children : List PFTree)

instance : Inhabited PFTree := ⟨.mk {} []⟩

def PFTree.stats : PFTree → PFStats
  | .mk s _ => s

def PFTree.children : PFTree → List PFTree
  | .mk _ c => c

/-- Truncation toward zero, the effect of the C++ `int(...)` cast of a
floating value (line 293). -/
def ratTrunc (x : Rat) : Int :=
  if 0 ≤ x then ⌊x⌋ else ⌈x⌉

/-- Ascending comparison of scored children, matching the lexicographic
`operator<` of `std::pair<float, Node*>`: by score first, then by the
pointer, which for siblings allocated in order coincides with the child
index. -/
def scorePairLe (a b : Rat × Nat) : Prop :=
  a.1 < b.1 ∨ (a.1 = b.1 ∧ a.2 ≤ b.2)

instance (a b : Rat × Nat) : Decidable (scorePairLe a b) := by
  unfold scorePairLe; infer_instance

def insertSorted (x : Rat × Nat) : List (Rat × Nat) → List (Rat × Nat)
  | [] => [x]
  | y :: ys => if scorePairLe x y then x :: y :: ys else y :: insertSorted x ys

def sortScores : List (Rat × Nat) → List (Rat × Nat)
  | [] => []
  | x :: xs => insertSorted x (sortScores xs)

/-- One `std::partial_sort` chunk (lines 280-282). `partial_sort` puts the
smallest elements of positions at and after `fu` in ascending order up to
the chunk boundary and leaves the tail in unspecified order; this model
realizes the unspecified tail as sorted as well. The loop only ever reads
positions inside a previously sorted chunk, and the sorted chunks of
distinct keys form the globally ascending order, so every value the loop
reads agrees with any conforming C++ execution. -/
def chunkSortStep (scores : List (Rat × Nat)) (fu : Nat) : List (Rat × Nat) :=
  scores.take fu ++ sortScores (scores.drop fu)

/-- Loop state of the scored-children scan (lines 267-270): the scores
vector, `first_unsorted_index`, the remaining `budget`, `budget_to_spend`,
and `total_budget_spent`. -/
structure PrefetchAcc where
  scores : List (Rat × Nat)
  fu : Nat
  budget : Int
  bts : Int
  total : Int
deriving DecidableEq

/-- One iteration of the scored-children loop of `PrefetchIntoCache` (lines
271-301), with the recursive call abstracted as `recurse`: skip when the
budget is spent (the `break` of line 272, which leaves the loop state
unchanged exactly as skipping every later iteration does), otherwise sort
the next chunk if due, pick the i-th scored child, re-derive
`budget_to_spend` unless this is the last child (lines 287-297), recurse
into the child and account the spend. -/
def prefetchStep (recurse : PFTree → Int → Int) (t : PFTree) (factor : Rat)
    (len : Nat) (acc : PrefetchAcc) (i : Nat) : PrefetchAcc :=
  if acc.budget ≤ 0 then acc
  else
    let acc1 :=
      if acc.fu ≠ len ∧ acc.fu ≤ i + 2 then
        let nu := min len (if acc.budget < 2 then acc.fu + 2 else acc.fu + 3)
        { acc with scores := chunkSortStep acc.scores acc.fu, fu := nu }
      else acc
    let ci := (acc1.scores.getD i (0, 0)).2
    let c := t.children.getD ci default
    let acc2 :=
      if i ≠ len - 1 then
        let next_score := (acc1.scores.getD (i + 1) (0, 0)).1
        let cq := c.stats.computeQ
        if cq < next_score then
          { acc1 with
            bts := min acc1.budget
              (ratTrunc (c.stats.p * factor / (next_score - cq)
                  - (c.stats.n : Rat) - (c.stats.n_in_flight : Rat)) + 1) }
        else { acc1 with bts := acc1.budget }
      else acc1
    let spent := recurse c acc2.bts
    { acc2 with budget := acc2.budget - spent, total := acc2.total + spent }

/-- The body of `Search::PrefetchIntoCache` (lines 244-303), with the
recursive call abstracted as `recurse`. `factorOf n` stands for
`kCpuct * std::sqrt(n + 1)` (line 262), supplied as a function because the
square root is irrational; `aggressive` is the aggressive-caching option. -/
def prefetchBody (factorOf : Nat → Rat) (aggressive : Bool)
    (recurse : PFTree → Int → Int) (t : PFTree) (budget : Int) : Int :=
    if budget ≤ 0 then 0
    else if (t.stats.n : Int) + t.stats.n_in_flight = 0 then
      if t.stats.cached then (if aggressive then 0 else 1) else 1
    else if t.children.isEmpty then 0
    else
      let factor := factorOf t.stats.n
      let scores0 := t.children.enum.map
        (fun ic => (factor * ic.2.stats.computeU + ic.2.stats.computeQ, ic.1))
      let len := scores0.length
      ((List.range len).foldl (prefetchStep recurse t factor len)
        { scores := scores0, fu := 0, budget := budget, bts := budget, total := 0 }).total

/-- `Search::PrefetchIntoCache` itself: one `prefetchBody` per recursion
level, the recursion depth bounded by `fuel`. -/
def prefetchIntoCache (factorOf : Nat → Rat) (aggressive : Bool)
    (fuel : Nat) (t : PFTree) (budget : Int) : Int :=
  match fuel with
  | 0 => 0
  | fuel + 1 =>
    prefetchBody factorOf aggressive
      (fun c b => prefetchIntoCache factorOf aggressive fuel c b) t budget
termination_by structural fuel

/-! ## Applying NN outputs (Search::Worker, lines 156-176) -/

/-- The prior-population loop of the worker (lines 161-174): the children are
given by their `move.as_nn_index()` values in sibling order and `nnP` is
`computation.GetPVal(idx_in_computation, ·)`. Each child first receives the
raw prior read at its move index; the raw priors are summed, and when the
total is positive every child's prior is divided by it. Returns the
children's `p` values in sibling order. -/
def setPriors (nnP : Nat → Rat) (childMoves : List Nat) : List Rat :=
  let raw := childMoves.map nnP
  let total := raw.sum
  if 0 < total then raw.map (fun p => p / total) else raw

/-! ## Orchestrator stop and callback protocol (lines 360-380, 546-586)

The counters guarded by `counters_mutex_` and `nodes_mutex_`, the stop
latch, and the best-move latch form a small state machine; the events are
the operations the worker loop and the host can perform on it. Wall-clock
time enters as the `elapsed_ms` observation of `GetTimeSinceStart()`. The
best-move callback itself is modelled by counting its invocations. -/

/-- The search limits (`limits_.playouts`, `limits_.visits`,
`limits_.time_ms` as read at lines 363-370). -/
structure SearchLimits where
  playouts : Int
  visits : Int
  time_ms : Int

/-- Orchestrator state: `stop_`, `responded_bestmove_`, `total_playouts_`,
`initial_visits_`, and the number of best-move callback invocations. -/
structure OrchState where
  stop : Bool
  responded_bestmove : Bool
  total_playouts : Int
  initial_visits : Int
  bestmove_calls : Nat
deriving DecidableEq

/-- `Search::MaybeTriggerStop` (lines 360-380): the three limit checks each
may set `stop_`, and on `stop_` with the latch unset the best-move
callback fires once and the latch is set. -/
def maybeTriggerStop (limits : SearchLimits) (elapsed_ms : Int) (s : OrchState) : OrchState :=
  let s1 :=
    if 0 ≤ limits.playouts ∧ limits.playouts ≤ s.total_playouts
    then { s with stop := true } else s
  let s2 :=
    if 0 ≤ limits.visits ∧ limits.visits ≤ s1.total_playouts + s1.initial_visits
    then { s1 with stop := true } else s1
  let s3 :=
    if 0 ≤ limits.time_ms ∧ limits.time_ms ≤ elapsed_ms
    then { s2 with stop := true } else s2
  if s3.stop ∧ ¬s3.responded_bestmove then
    { s3 with responded_bestmove := true, bestmove_calls := s3.bestmove_calls + 1 }
  else s3

/-- The operations touching the stop/latch state: the worker's playout-count
update (line 182), a `MaybeTriggerStop` call with an observed elapsed time,
`Search::Stop` (lines 564-567), and `Search::Abort` (lines 569-573; the
destructor, lines 583-586, performs `Abort` then `Wait`). -/
inductive SearchEvent where
  | addPlayouts (new_nodes : Nat)
  | triggerStop (elapsed_ms : Int)
  | stopCall
  | abortCall
deriving DecidableEq

def searchStep (limits : SearchLimits) (s : OrchState) : SearchEvent → OrchState
  | .addPlayouts k => { s with total_playouts := s.total_playouts + k }
  | .triggerStop t => maybeTriggerStop limits t s
  | .stopCall => { s with stop := true }
  | .abortCall => { s with responded_bestmove := true, stop := true }

def searchRun (limits : SearchLimits) (s : OrchState) (evs : List SearchEvent) : OrchState :=
  evs.foldl (searchStep limits) s

/-- State right after the `Search` constructor (lines 58-74): nothing stopped,
latch unset, no playouts, `initial_visits_ = root_node->n`. -/
def initState (initial_visits : Int) : OrchState :=
  { stop := false, responded_bestmove := false, total_playouts := 0,
    initial_visits := initial_visits, bestmove_calls := 0 }

/-- One iteration of the worker loop at the orchestrator level: the gathered
batch ends with `total_playouts_ += new_nodes` (line 182) and
`MaybeTriggerStop()` (line 232). The per-iteration input supplies the batch
size and the observed elapsed time. -/
def workerIteration (limits : SearchLimits) (input : Nat × Int) (s : OrchState) : OrchState :=
  maybeTriggerStop limits input.2
    { s with total_playouts := s.total_playouts + input.1 }

/-- The worker loop (`Search::Worker`, lines 108-240): the body runs first and
only then is `stop_` consulted (lines 234-238), so the loop is a do-while.
Returns how many iterations of the body executed together with the final
state; the iteration-input list plays the role of fuel for a loop whose
exit depends on the stop flag alone. -/
def workerLoop (limits : SearchLimits) (s : OrchState)
    (inputs : List (Nat × Int)) : Nat × OrchState :=
  match inputs with
  | [] => (0, s)
  | input :: rest =>
    let s1 := workerIteration limits input s
    if s1.stop then (1, s1)
    else
      let r := workerLoop limits s1 rest
      (r.1 + 1, r.2)

/-! # Theorems -/

/-! ## Generic helpers -/

theorem foldlInv {σ α : Type} (P : σ → Prop) (f : σ → α → σ) :
    ∀ (l : List α) (s : σ), P s → (∀ s a, a ∈ l → P s → P (f s a)) →
      P (l.foldl f s)
  | [], _, hs, _ => hs
  | x :: xs, s, hs, hf =>
    foldlInv P f xs (f s x) (hf s x (List.mem_cons_self x xs) hs)
      (fun s a ha hp => hf s a (List.mem_cons_of_mem x ha) hp)

theorem sum_map_div (l : List Rat) (c : Rat) :
    (l.map (fun x => x / c)).sum = l.sum / c := by
  induction l with
  | nil => simp
  | cons x xs ih => simp [ih, div_add_div_same]

/-! ## C7: prior normalization -/

/-- C7: when NN outputs are applied to a non-terminal processed leaf, each
child first receives the raw prior read at its move index; if the raw
priors' total is positive every prior is divided by it and the priors then
sum to exactly 1; if the total is 0 they are left unscaled and sum to 0.
The hypothesis records that NN priors are probabilities, hence
nonnegative. -/
theorem setPriors_sum_one_or_zero (nnP : Nat → Rat) (childMoves : List Nat)
    (h : ∀ m ∈ childMoves, 0 ≤ nnP m) :
    (setPriors nnP childMoves).sum = 1 ∨ (setPriors nnP childMoves).sum = 0 := by
  unfold setPriors
  by_cases hpos : 0 < (childMoves.map nnP).sum
  · left
    simp only [if_pos hpos, sum_map_div]
    exact div_self (ne_of_gt hpos)
  · right
    simp only [if_neg hpos]
    have h0 : 0 ≤ (childMoves.map nnP).sum := by
      apply List.sum_nonneg
      intro x hx
      obtain ⟨m, hm, rfl⟩ := List.mem_map.mp hx
      exact h m hm
    exact le_antisymm (not_lt.mp hpos) h0

/-- Witness for C7 at a concrete input. -/
theorem setPriors_sum_one_or_zero_witness :
    (∀ m ∈ ([1, 3] : List Nat), 0 ≤ ((fun m : Nat => (m : Rat)) m)) ∧
      ((setPriors (fun m : Nat => (m : Rat)) [1, 3]).sum = 1 ∨
        (setPriors (fun m : Nat => (m : Rat)) [1, 3]).sum = 0) :=
  ⟨fun m _ => by exact Nat.cast_nonneg m,
    setPriors_sum_one_or_zero (fun m : Nat => (m : Rat)) [1, 3]
      (fun m _ => by exact Nat.cast_nonneg m)⟩

/-! ## C6: the best-move callback fires at most once -/

theorem searchStep_callback_inv (limits : SearchLimits) (s : OrchState) (e : SearchEvent)
    (h1 : s.responded_bestmove = false → s.bestmove_calls = 0)
    (h2 : s.bestmove_calls ≤ 1) :
    ((searchStep limits s e).responded_bestmove = false →
      (searchStep limits s e).bestmove_calls = 0) ∧
      (searchStep limits s e).bestmove_calls ≤ 1 := by
  cases e with
  | addPlayouts k => exact ⟨h1, h2⟩
  | triggerStop t =>
    simp only [searchStep, maybeTriggerStop]
    split_ifs <;> simp_all
  | stopCall => exact ⟨h1, h2⟩
  | abortCall => exact ⟨fun h => by simp [searchStep] at h, h2⟩

theorem searchStep_suppressed (limits : SearchLimits) (s : OrchState) (e : SearchEvent)
    (h1 : s.responded_bestmove = true) (h2 : s.bestmove_calls = 0) :
    (searchStep limits s e).responded_bestmove = true ∧
      (searchStep limits s e).bestmove_calls = 0 := by
  cases e with
  | addPlayouts k => exact ⟨h1, h2⟩
  | triggerStop t =>
    simp only [searchStep, maybeTriggerStop]
    split_ifs <;> simp_all
  | stopCall => exact ⟨h1, h2⟩
  | abortCall => exact ⟨rfl, h2⟩

/-- C6: the best-move callback is invoked at most once per search lifetime:
over every event sequence from the initial state at most one invocation
happens; if `Abort` comes first the callback is suppressed entirely; and a
`MaybeTriggerStop` that finds the search stopped with the latch unset
invokes the callback exactly once and sets the latch. -/
theorem bestmove_callback_once (limits : SearchLimits) (iv : Int) (evs : List SearchEvent) :
    (searchRun limits (initState iv) evs).bestmove_calls ≤ 1 ∧
      (searchRun limits (searchStep limits (initState iv) SearchEvent.abortCall) evs).bestmove_calls = 0 ∧
      (∀ (s : OrchState) (t : Int), s.responded_bestmove = false →
        (maybeTriggerStop limits t s).stop = true →
        (maybeTriggerStop limits t s).bestmove_calls = s.bestmove_calls + 1 ∧
          (maybeTriggerStop limits t s).responded_bestmove = true) := by
  refine ⟨?_, ?_, ?_⟩
  · have h := foldlInv
      (fun s : OrchState => (s.responded_bestmove = false → s.bestmove_calls = 0) ∧ s.bestmove_calls ≤ 1)
      (searchStep limits) evs (initState iv) ⟨fun _ => rfl, by simp [initState]⟩
      (fun s e _ hp => searchStep_callback_inv limits s e hp.1 hp.2)
    exact h.2
  · have h := foldlInv
      (fun s : OrchState => s.responded_bestmove = true ∧ s.bestmove_calls = 0)
      (searchStep limits) evs (searchStep limits (initState iv) SearchEvent.abortCall)
      ⟨rfl, rfl⟩
      (fun s e _ hp => searchStep_suppressed limits s e hp.1 hp.2)
    exact h.2
  · intro s t hresp hstop
    revert hstop
    simp only [maybeTriggerStop]
    split_ifs <;> simp_all

/-- Witness for C6 at concrete inputs. -/
theorem bestmove_callback_once_witness :
    (searchRun ⟨0, -1, -1⟩ (initState 0)
        [SearchEvent.triggerStop 5, SearchEvent.stopCall, SearchEvent.triggerStop 6]).bestmove_calls ≤ 1 ∧
      (searchRun ⟨0, -1, -1⟩ (searchStep ⟨0, -1, -1⟩ (initState 0) SearchEvent.abortCall)
        [SearchEvent.triggerStop 5]).bestmove_calls = 0 ∧
      (maybeTriggerStop ⟨0, -1, -1⟩ 5 (initState 0)).bestmove_calls =
        (initState 0).bestmove_calls + 1 := by
  have h3 := (bestmove_callback_once ⟨0, -1, -1⟩ 0 []).2.2 (initState 0) 5 (by decide) (by decide)
  exact ⟨(bestmove_callback_once ⟨0, -1, -1⟩ 0
            [SearchEvent.triggerStop 5, SearchEvent.stopCall, SearchEvent.triggerStop 6]).1,
         (bestmove_callback_once ⟨0, -1, -1⟩ 0 [SearchEvent.triggerStop 5]).2.1,
         h3.1⟩

/-! ## C9: negative limits disable their stop conditions -/

theorem maybeTriggerStop_stop_iff (limits : SearchLimits) (t : Int) (s : OrchState) :
    (maybeTriggerStop limits t s).stop = true ↔
      (s.stop = true ∨
        (0 ≤ limits.playouts ∧ limits.playouts ≤ s.total_playouts) ∨
        (0 ≤ limits.visits ∧ limits.visits ≤ s.total_playouts + s.initial_visits) ∨
        (0 ≤ limits.time_ms ∧ limits.time_ms ≤ t)) := by
  simp only [maybeTriggerStop]
  split_ifs <;> simp_all <;> tauto

/-- C9: a negative value disables each stop condition individually: a
`MaybeTriggerStop` observation sets the stop flag exactly when it was
already set or one of the limit conditions guarded by `limit >= 0` holds,
so with `limits.playouts < 0` the playouts condition never sets the flag
(whatever the other two limits are), and likewise for `limits.visits < 0`
and `limits.time_ms < 0`; consequently a search with all three limits
negative stops only through `Stop()`, `Abort()` or destruction. -/
theorem negative_limits_never_stop (limits : SearchLimits) :
    (limits.playouts < 0 → ∀ (t : Int) (s : OrchState),
      ((maybeTriggerStop limits t s).stop = true ↔
        (s.stop = true ∨
          (0 ≤ limits.visits ∧ limits.visits ≤ s.total_playouts + s.initial_visits) ∨
          (0 ≤ limits.time_ms ∧ limits.time_ms ≤ t)))) ∧
    (limits.visits < 0 → ∀ (t : Int) (s : OrchState),
      ((maybeTriggerStop limits t s).stop = true ↔
        (s.stop = true ∨
          (0 ≤ limits.playouts ∧ limits.playouts ≤ s.total_playouts) ∨
          (0 ≤ limits.time_ms ∧ limits.time_ms ≤ t)))) ∧
    (limits.time_ms < 0 → ∀ (t : Int) (s : OrchState),
      ((maybeTriggerStop limits t s).stop = true ↔
        (s.stop = true ∨
          (0 ≤ limits.playouts ∧ limits.playouts ≤ s.total_playouts) ∨
          (0 ≤ limits.visits ∧ limits.visits ≤ s.total_playouts + s.initial_visits)))) ∧
    (limits.playouts < 0 → limits.visits < 0 → limits.time_ms < 0 →
      ∀ (iv : Int) (evs : List SearchEvent),
        (∀ e ∈ evs, e ≠ SearchEvent.stopCall ∧ e ≠ SearchEvent.abortCall) →
        (searchRun limits (initState iv) evs).stop = false) := by
  refine ⟨?_, ?_, ?_, ?_⟩
  · intro hp t s
    rw [maybeTriggerStop_stop_iff]
    have h1 : ¬(0 ≤ limits.playouts ∧ limits.playouts ≤ s.total_playouts) :=
      fun h => absurd h.1 (by omega)
    tauto
  · intro hv t s
    rw [maybeTriggerStop_stop_iff]
    have h2 : ¬(0 ≤ limits.visits ∧ limits.visits ≤ s.total_playouts + s.initial_visits) :=
      fun h => absurd h.1 (by omega)
    tauto
  · intro ht t s
    rw [maybeTriggerStop_stop_iff]
    have h3 : ¬(0 ≤ limits.time_ms ∧ limits.time_ms ≤ t) :=
      fun h => absurd h.1 (by omega)
    tauto
  · intro hp hv ht iv evs hev
    unfold searchRun
    refine foldlInv (fun s : OrchState => s.stop = false) (searchStep limits) evs
      (initState iv) rfl ?_
    intro s e he hs
    obtain ⟨hne1, hne2⟩ := hev e he
    cases e with
    | addPlayouts k => exact hs
    | triggerStop t =>
      have hchar := maybeTriggerStop_stop_iff limits t s
      have hnot : ¬(maybeTriggerStop limits t s).stop = true := by
        rw [hchar, hs]
        rintro (hfalse | h | h | h)
        · exact Bool.false_ne_true hfalse
        · exact absurd h.1 (by omega)
        · exact absurd h.1 (by omega)
        · exact absurd h.1 (by omega)
      simp only [searchStep]
      exact Bool.not_eq_true _ |>.mp hnot
    | stopCall => exact absurd rfl hne1
    | abortCall => exact absurd rfl hne2

/-- Witness for C9 at concrete inputs: with playouts = -1 but visits = 0
enabled, the stop flag after a `MaybeTriggerStop` is accounted for by the
visits and time conditions alone; and with all three limits -1 a run that
never calls Stop or Abort ends unstopped. -/
theorem negative_limits_never_stop_witness :
    ((maybeTriggerStop ⟨-1, 0, -1⟩ 5 (initState 0)).stop = true ↔
      ((initState 0).stop = true ∨
        (0 ≤ (⟨-1, 0, -1⟩ : SearchLimits).visits ∧
          (⟨-1, 0, -1⟩ : SearchLimits).visits
            ≤ (initState 0).total_playouts + (initState 0).initial_visits) ∨
        (0 ≤ (⟨-1, 0, -1⟩ : SearchLimits).time_ms ∧
          (⟨-1, 0, -1⟩ : SearchLimits).time_ms ≤ 5))) ∧
      (searchRun ⟨-1, -1, -1⟩ (initState 0)
        [SearchEvent.addPlayouts 7, SearchEvent.triggerStop 1000000]).stop = false := by
  have h1 := (negative_limits_never_stop ⟨-1, 0, -1⟩).1 (by decide) 5 (initState 0)
  have h4 := (negative_limits_never_stop ⟨-1, -1, -1⟩).2.2.2 (by decide) (by decide) (by decide)
    0 [SearchEvent.addPlayouts 7, SearchEvent.triggerStop 1000000] (by decide)
  exact ⟨h1, h4⟩

/-! ## C10: the worker loop checks the stop flag only after a full body -/

theorem maybeTriggerStop_keeps_stop (limits : SearchLimits) (t : Int) (s : OrchState)
    (h : s.stop = true) : (maybeTriggerStop limits t s).stop = true := by
  simp only [maybeTriggerStop]
  split_ifs <;> simp_all

/-- C10: every invocation of the worker loop executes at least one full body
iteration before the stop flag is consulted; in particular when the stop
flag is already set at entry exactly one batch is still gathered, backed
up and reported before the loop exits. -/
theorem worker_loop_runs_once (limits : SearchLimits) (s : OrchState)
    (inputs : List (Nat × Int)) (hne : inputs ≠ []) :
    1 ≤ (workerLoop limits s inputs).1 ∧
      (s.stop = true → (workerLoop limits s inputs).1 = 1) := by
  cases inputs with
  | nil => exact absurd rfl hne
  | cons input rest =>
    constructor
    · simp only [workerLoop]
      split
      · exact le_refl 1
      · omega
    · intro hstop
      have h1 : (workerIteration limits input s).stop = true := by
        unfold workerIteration
        exact maybeTriggerStop_keeps_stop _ _ _ hstop
      simp only [workerLoop, h1, if_pos]

/-- Witness for C10 at a concrete input whose stop flag is already set. -/
theorem worker_loop_runs_once_witness :
    1 ≤ (workerLoop ⟨-1, -1, -1⟩ ⟨true, false, 0, 0, 0⟩ [(3, 5)]).1 ∧
      (workerLoop ⟨-1, -1, -1⟩ ⟨true, false, 0, 0, 0⟩ [(3, 5)]).1 = 1 := by
  have h := worker_loop_runs_once ⟨-1, -1, -1⟩ ⟨true, false, 0, 0, 0⟩ [(3, 5)] (by decide)
  exact ⟨h.1, h.2 rfl⟩

/-! ## C2: terminal detection order in ExtendNode -/

/-- C2: terminal detection applies its checks in source order, first match
wins, each setting `is_terminal`: no legal moves gives v = +1 under check
(checkmate) and v = 0 otherwise (stalemate); insufficient mating material
gives v = 0; a 50-move counter of at least 100 half-moves gives v = 0; a
position repeated at least 2 prior times gives v = 0; when none matches
the node stays non-terminal and one child is allocated per legal move, in
move order. -/
theorem extendNode_terminal_rules {Board : Type} (api : BoardApi Board)
    (reps : Nat) (node : ENode Board) (hfresh : node.is_terminal = false) :
    (api.generateValidMoves node.board = [] →
      (extendNode api reps node).is_terminal = true ∧
        (extendNode api reps node).v = (if api.isUnderCheck node.board then 1 else 0)) ∧
    (api.generateValidMoves node.board ≠ [] →
      api.hasMatingMaterial node.board = false →
      (extendNode api reps node).is_terminal = true ∧ (extendNode api reps node).v = 0) ∧
    (api.generateValidMoves node.board ≠ [] →
      api.hasMatingMaterial node.board = true →
      100 ≤ node.no_capture_ply →
      (extendNode api reps node).is_terminal = true ∧ (extendNode api reps node).v = 0) ∧
    (api.generateValidMoves node.board ≠ [] →
      api.hasMatingMaterial node.board = true →
      node.no_capture_ply < 100 →
      2 ≤ reps →
      (extendNode api reps node).is_terminal = true ∧ (extendNode api reps node).v = 0) ∧
    (api.generateValidMoves node.board ≠ [] →
      api.hasMatingMaterial node.board = true →
      node.no_capture_ply < 100 →
      reps < 2 →
      (extendNode api reps node).is_terminal = false ∧
        (extendNode api reps node).children.map ExtChild.move =
          (api.generateValidMoves node.board).map ValidMove.move) := by
  refine ⟨?_, ?_, ?_, ?_, ?_⟩
  · intro h
    simp [extendNode, h]
  · intro h hmm
    simp [extendNode, List.isEmpty_iff, h, hmm]
  · intro h hmm hncp
    simp [extendNode, List.isEmpty_iff, h, hmm, hncp]
  · intro h hmm hncp hreps
    simp [extendNode, List.isEmpty_iff, h, hmm, Nat.not_le.mpr hncp, hreps]
  · intro h hmm hncp hreps
    simp [extendNode, List.isEmpty_iff, h, hmm, Nat.not_le.mpr hncp,
      Nat.not_le.mpr hreps, hfresh]

/-- Witness for C2 at a concrete input: a board with no legal moves whose
side to move is under check (checkmate). -/
theorem extendNode_terminal_rules_witness :
    ((⟨(), 0, 0, 0, false, 0, []⟩ : ENode Unit).is_terminal = false) ∧
      (extendNode (⟨fun _ => [], fun _ => true, fun _ => true, fun b => b⟩ : BoardApi Unit) 0
        ⟨(), 0, 0, 0, false, 0, []⟩).is_terminal = true ∧
      (extendNode (⟨fun _ => [], fun _ => true, fun _ => true, fun b => b⟩ : BoardApi Unit) 0
        ⟨(), 0, 0, 0, false, 0, []⟩).v = 1 := by
  have h := (extendNode_terminal_rules
      (⟨fun _ => [], fun _ => true, fun _ => true, fun b => b⟩ : BoardApi Unit) 0
      ⟨(), 0, 0, 0, false, 0, []⟩ rfl).1 rfl
  exact ⟨rfl, h.1, by rw [h.2]; simp⟩

/-! ## C3: best-move selection -/

theorem getBestChildGo_spec : ∀ (cs : List BNode) (b : BNode),
    ∃ r, getBestChildGo (some b) (b.visits : Int) cs = some r ∧
      ((r = b ∧ ∀ c ∈ cs, c.visits ≤ b.visits) ∨
        (∃ i : Fin cs.length, r = cs.get i ∧ b.visits < (cs.get i).visits ∧
          (∀ j : Fin cs.length, (cs.get j).visits ≤ (cs.get i).visits) ∧
          (∀ j : Fin cs.length, (j : Nat) < (i : Nat) →
            (cs.get j).visits < (cs.get i).visits))) := by
  intro cs
  induction cs with
  | nil =>
    intro b
    exact ⟨b, rfl, Or.inl ⟨rfl, by simp⟩⟩
  | cons c rest ih =>
    intro b
    by_cases hc : (b.visits : Int) < (c.visits : Int)
    · obtain ⟨r, hr, hspec⟩ := ih c
      refine ⟨r, ?_, ?_⟩
      · simpa [getBestChildGo, hc] using hr
      · right
        rcases hspec with ⟨rfl, hall⟩ | ⟨i, hri, hlt, hall, hstrict⟩
        · refine ⟨⟨0, by simp⟩, rfl, by exact_mod_cast hc, ?_, ?_⟩
          · rintro ⟨j, hj⟩
            cases j with
            | zero => exact le_refl _
            | succ jj =>
              exact hall _ (rest.get_mem jj (by simpa using hj))
          · rintro ⟨j, hj⟩ hlt0
            simp at hlt0
        · refine ⟨⟨i + 1, by simpa using i.isLt⟩, ?_, ?_, ?_, ?_⟩
          · simpa using hri
          · have hbc : b.visits < c.visits := by exact_mod_cast hc
            have : (List.get (c :: rest) ⟨(i : Nat) + 1, by simpa using i.isLt⟩) = rest.get i := by
              simp
            rw [this]
            omega
          · rintro ⟨j, hj⟩
            have hgoal : (List.get (c :: rest) ⟨(i : Nat) + 1, by simpa using i.isLt⟩) = rest.get i := by
              simp
            rw [hgoal]
            cases j with
            | zero =>
              have hbc : b.visits < c.visits := by exact_mod_cast hc
              simpa using le_of_lt hlt
            | succ jj =>
              simpa using hall ⟨jj, by simpa using hj⟩
          · rintro ⟨j, hj⟩ hlt0
            have hgoal : (List.get (c :: rest) ⟨(i : Nat) + 1, by simpa using i.isLt⟩) = rest.get i := by
              simp
            rw [hgoal]
            cases j with
            | zero => simpa using hlt
            | succ jj =>
              have := hstrict ⟨jj, by simpa using hj⟩ (by simpa using hlt0)
              simpa using this
    · obtain ⟨r, hr, hspec⟩ := ih b
      refine ⟨r, ?_, ?_⟩
      · simpa [getBestChildGo, hc] using hr
      · rcases hspec with ⟨rfl, hall⟩ | ⟨i, hri, hlt, hall, hstrict⟩
        · left
          refine ⟨rfl, ?_⟩
          intro c' hc'
          rcases List.mem_cons.mp hc' with rfl | hmem
          · exact_mod_cast not_lt.mp hc
          · exact hall c' hmem
        · right
          have hcb : c.visits ≤ b.visits := by exact_mod_cast not_lt.mp hc
          refine ⟨⟨i + 1, by simpa using i.isLt⟩, ?_, ?_, ?_, ?_⟩
          · simpa using hri
          · have hgoal : (List.get (c :: rest) ⟨(i : Nat) + 1, by simpa using i.isLt⟩) = rest.get i := by
              simp
            rw [hgoal]
            exact hlt
          · rintro ⟨j, hj⟩
            have hgoal : (List.get (c :: rest) ⟨(i : Nat) + 1, by simpa using i.isLt⟩) = rest.get i := by
              simp
            rw [hgoal]
            cases j with
            | zero => simpa using le_of_lt (lt_of_le_of_lt hcb hlt)
            | succ jj => simpa using hall ⟨jj, by simpa using hj⟩
          · rintro ⟨j, hj⟩ hlt0
            have hgoal : (List.get (c :: rest) ⟨(i : Nat) + 1, by simpa using i.isLt⟩) = rest.get i := by
              simp
            rw [hgoal]
            cases j with
            | zero => simpa using lt_of_le_of_lt hcb hlt
            | succ jj =>
              have := hstrict ⟨jj, by simpa using hj⟩ (by simpa using hlt0)
              simpa using this

theorem getBestChildGo_none_spec (cs : List BNode) (hne : cs ≠ []) :
    ∃ i : Fin cs.length, getBestChildGo none (-1) cs = some (cs.get i) ∧
      (∀ j : Fin cs.length, (cs.get j).visits ≤ (cs.get i).visits) ∧
      (∀ j : Fin cs.length, (j : Nat) < (i : Nat) →
        (cs.get j).visits < (cs.get i).visits) := by
  cases cs with
  | nil => exact absurd rfl hne
  | cons c rest =>
    have hstep : getBestChildGo none (-1) (c :: rest)
        = getBestChildGo (some c) (c.visits : Int) rest := by
      have : (-1 : Int) < (c.visits : Int) := by omega
      simp [getBestChildGo, this]
    obtain ⟨r, hr, hspec⟩ := getBestChildGo_spec rest c
    rcases hspec with ⟨rfl, hall⟩ | ⟨i, hri, hlt, hall, hstrict⟩
    · refine ⟨⟨0, by simp⟩, ?_, ?_, ?_⟩
      · rw [hstep, hr]
        rfl
      · rintro ⟨j, hj⟩
        cases j with
        | zero => exact le_refl _
        | succ jj => exact hall _ (rest.get_mem jj (by simpa using hj))
      · rintro ⟨j, hj⟩ h0
        simp at h0
    · refine ⟨⟨i + 1, by simpa using i.isLt⟩, ?_, ?_, ?_⟩
      · rw [hstep, hr, hri]
        try simp
      · rintro ⟨j, hj⟩
        have hgoal : (List.get (c :: rest) ⟨(i : Nat) + 1, by simpa using i.isLt⟩) = rest.get i := by
          simp
        rw [hgoal]
        cases j with
        | zero => simpa using le_of_lt hlt
        | succ jj => simpa using hall ⟨jj, by simpa using hj⟩
      · rintro ⟨j, hj⟩ hlt0
        have hgoal : (List.get (c :: rest) ⟨(i : Nat) + 1, by simpa using i.isLt⟩) = rest.get i := by
          simp
        rw [hgoal]
        cases j with
        | zero => simpa using hlt
        | succ jj =>
          have := hstrict ⟨jj, by simpa using hj⟩ (by simpa using hlt0)
          simpa using this

/-- C3: best-move selection returns the root child maximizing
`n + n_in_flight` with ties broken in favor of the earliest child in the
child list; the ponder move is, by the same rule, the best child of that
best child, and is absent when the best child has no children. -/
theorem getBestMove_spec (root : BNode) (hne : root.children ≠ []) :
    ∃ i : Fin root.children.length,
      (∀ j : Fin root.children.length,
        (root.children.get j).visits ≤ (root.children.get i).visits) ∧
      (∀ j : Fin root.children.length, (j : Nat) < (i : Nat) →
        (root.children.get j).visits < (root.children.get i).visits) ∧
      ((root.children.get i).children = [] →
        getBestMoveInternal root = some ((root.children.get i).move, none)) ∧
      ((root.children.get i).children ≠ [] →
        ∃ k : Fin (root.children.get i).children.length,
          (∀ j : Fin (root.children.get i).children.length,
            ((root.children.get i).children.get j).visits ≤
              ((root.children.get i).children.get k).visits) ∧
          (∀ j : Fin (root.children.get i).children.length, (j : Nat) < (k : Nat) →
            ((root.children.get i).children.get j).visits <
              ((root.children.get i).children.get k).visits) ∧
          getBestMoveInternal root =
            some ((root.children.get i).move,
              some (((root.children.get i).children.get k).move))) := by
  obtain ⟨i, hbc, hmax, hstrict⟩ := getBestChildGo_none_spec root.children hne
  have hbc' : getBestChild root = some (root.children.get i) := hbc
  have hempty : root.children.isEmpty = false := by
    simpa [List.isEmpty_iff] using hne
  refine ⟨i, hmax, hstrict, ?_, ?_⟩
  · intro hleaf
    have hponder : getBestChild (root.children.get i) = none := by
      unfold getBestChild
      rw [hleaf]
      rfl
    unfold getBestMoveInternal
    rw [hempty, hbc']
    simp only [List.get_eq_getElem] at hponder
    simp [hponder]
  · intro hne2
    obtain ⟨k, hk, hkmax, hkstrict⟩ :=
      getBestChildGo_none_spec (root.children.get i).children hne2
    have hponder : getBestChild (root.children.get i)
        = some ((root.children.get i).children.get k) := hk
    refine ⟨k, hkmax, hkstrict, ?_⟩
    unfold getBestMoveInternal
    rw [hempty, hbc']
    simp only [List.get_eq_getElem] at hponder
    simp [hponder]

/-- Witness for C3 at a concrete root with two children: the second child has
more visits and no children of its own, so its move is chosen and the
ponder move is absent. -/
theorem getBestMove_spec_witness :
    (BNode.node 0 0 0 [BNode.node 10 1 0 [], BNode.node 11 2 0 []]).children ≠ [] ∧
      getBestMoveInternal (BNode.node 0 0 0 [BNode.node 10 1 0 [], BNode.node 11 2 0 []])
        = some (11, none) := by
  have hne : (BNode.node 0 0 0 [BNode.node 10 1 0 [], BNode.node 11 2 0 []]).children ≠ [] := by
    simp [BNode.children]
  obtain ⟨i, hmax, hstrict, hemp, hne2⟩ :=
    getBestMove_spec (BNode.node 0 0 0 [BNode.node 10 1 0 [], BNode.node 11 2 0 []]) hne
  rcases i with ⟨iv, hiv⟩
  match iv, hiv with
  | 0, _ =>
    have h2 := hmax ⟨1, by simp [BNode.children]⟩
    simp [BNode.children, BNode.visits, List.get] at h2
  | 1, _ =>
    have := hemp (by simp [BNode.children, List.get])
    refine ⟨hne, ?_⟩
    simpa [BNode.children, BNode.move, List.get] using this

/-! ## C1: backup maintains q = w / n -/

theorem backupUpdate_q (nd : PoolNode) (v : Rat) :
    (backupUpdate nd v).q = (backupUpdate nd v).w / ((backupUpdate nd v).n : Rat) ∧
      0 < (backupUpdate nd v).n := by
  simp [backupUpdate]

theorem backupWalk_succ (root f : Nat) (cur : Option Nat) (v : Rat) (depth cfd : Nat)
    (fdu : Bool) (st : BackupState) :
    backupWalk root (f + 1) cur v depth cfd fdu st =
      if cur = (st.pool.getD root default).parent then st
      else
        match cur with
        | none => st
        | some i =>
          let hp := backupHopStep root i v depth cfd fdu st
          backupWalk root f hp.next hp.v hp.depth hp.cfd hp.fdu hp.st := rfl

theorem backupHopStep_st_pool (root i : Nat) (v : Rat) (depth cfd : Nat) (fdu : Bool)
    (st : BackupState) :
    ∃ nd3 : PoolNode,
      (backupHopStep root i v depth cfd fdu st).st.pool = st.pool.set i nd3 ∧
        nd3.q = nd3.w / (nd3.n : Rat) ∧ 0 < nd3.n := by
  refine ⟨_, rfl, ?_, ?_⟩ <;>
    · split_ifs <;> simp [backupUpdate, apply_ite]

theorem backupWalk_QInvariant (root fuel : Nat) :
    ∀ (cur : Option Nat) (v : Rat) (depth cfd : Nat) (fdu : Bool)
      (st : BackupState), QInvariant st.pool →
      QInvariant (backupWalk root fuel cur v depth cfd fdu st).pool := by
  induction fuel with
  | zero =>
    intro cur v depth cfd fdu st h
    exact h
  | succ f ih =>
    intro cur v depth cfd fdu st h
    rw [backupWalk_succ]
    by_cases hstop : cur = (st.pool.getD root default).parent
    · rw [if_pos hstop]
      exact h
    · rw [if_neg hstop]
      cases cur with
      | none => exact h
      | some i =>
        obtain ⟨nd3, hpool, hq, hn⟩ := backupHopStep_st_pool root i v depth cfd fdu st
        exact ih _ _ _ _ _ _ (by
          rw [hpool]
          intro nd hnd hgt
          rcases List.mem_or_eq_of_mem_set hnd with hmem | rfl
          · exact h nd hmem hgt
          · exact hq)

/-- C1: backup walks the ancestor chain from a processed leaf up to the root
inclusive, terminating at the root's parent (possibly null); at every node
on the chain it adds the current value to `w`, increments `n`, decrements
`n_in_flight`, recomputes `q = w / n` and flips the sign of the value
before moving to the parent — so whenever the invariant "every node with
n > 0 has q = w / n" holds before a backup, it holds after it. -/
theorem backup_preserves_QInvariant (root fuel leaf : Nat) (st : BackupState)
    (h : QInvariant st.pool) : QInvariant (backupOne root fuel leaf st).pool :=
  backupWalk_QInvariant root fuel _ _ _ _ _ _ h

/-- Witness for C1 at a concrete two-node pool (root and a reserved leaf). -/
theorem backup_preserves_QInvariant_witness :
    QInvariant [({ parent := none, children := [1] } : PoolNode),
        { parent := some 0, v := 1 }] ∧
      QInvariant (backupOne 0 5 1
        ⟨[({ parent := none, children := [1] } : PoolNode),
          { parent := some 0, v := 1 }], none⟩).pool := by
  have h := backup_preserves_QInvariant 0 5 1
      ⟨[({ parent := none, children := [1] } : PoolNode),
        { parent := some 0, v := 1 }], none⟩ (by decide)
  exact ⟨by decide, h⟩

/-! ## C4: selector busy path and reservation -/

theorem getD_set_self {α : Type} (l : List α) (i : Nat) (a d : α) (h : i < l.length) :
    (l.set i a).getD i d = a := by
  simp [List.getD, List.getElem?_set_self h]

theorem getD_set_ne {α : Type} (l : List α) (i j : Nat) (a d : α) (h : i ≠ j) :
    (l.set i a).getD j d = l.getD j d := by
  simp [List.getD, List.getElem?_set_ne h]

theorem unwindInFlight_succ (root f : Nat) (cur : Option Nat) (pool : NodePool) :
    unwindInFlight root (f + 1) cur pool =
      if cur = (pool.getD root default).parent then pool
      else
        match cur with
        | none => pool
        | some i =>
          unwindInFlight root f (pool.getD i default).parent
            (pool.set i { pool.getD i default with
              n_in_flight := (pool.getD i default).n_in_flight - 1 }) := rfl

theorem ancestorChain_succ (root f : Nat) (cur : Option Nat) (pool : NodePool) :
    ancestorChain root (f + 1) cur pool =
      if cur = (pool.getD root default).parent then []
      else
        match cur with
        | none => []
        | some i => i :: ancestorChain root f (pool.getD i default).parent pool := rfl

theorem ancestorChain_set_n_in_flight (root k : Nat) (x : Int) :
    ∀ (fuel : Nat) (cur : Option Nat) (pool : NodePool),
      ancestorChain root fuel cur
        (pool.set k { pool.getD k default with n_in_flight := x }) =
      ancestorChain root fuel cur pool := by
  have hpar : ∀ (pool : NodePool) (j : Nat),
      ((pool.set k { pool.getD k default with n_in_flight := x }).getD j default).parent
        = (pool.getD j default).parent := by
    intro pool j
    by_cases h1 : k = j
    · subst h1
      by_cases h2 : k < pool.length
      · rw [getD_set_self _ _ _ _ h2]
      · rw [List.set_eq_of_length_le (by omega)]
    · rw [getD_set_ne _ _ _ _ _ h1]
  intro fuel
  induction fuel with
  | zero => intro cur pool; rfl
  | succ f ih =>
    intro cur pool
    rw [ancestorChain_succ, ancestorChain_succ, hpar]
    by_cases hstop : cur = (pool.getD root default).parent
    · rw [if_pos hstop, if_pos hstop]
    · rw [if_neg hstop, if_neg hstop]
      cases cur with
      | none => rfl
      | some i => simp only [hpar, ih]

theorem unwindInFlight_spec (root : Nat) :
    ∀ (fuel : Nat) (cur : Option Nat) (pool : NodePool),
      (ancestorChain root fuel cur pool).Nodup →
      (∀ j ∈ ancestorChain root fuel cur pool, j < pool.length) →
      ∀ j : Nat,
        (unwindInFlight root fuel cur pool).getD j default =
          if j ∈ ancestorChain root fuel cur pool
          then { pool.getD j default with
                 n_in_flight := (pool.getD j default).n_in_flight - 1 }
          else pool.getD j default := by
  intro fuel
  induction fuel with
  | zero =>
    intro cur pool _ _ j
    simp [ancestorChain, unwindInFlight]
  | succ f ih =>
    intro cur pool hnd hval j
    rw [unwindInFlight_succ]
    rw [ancestorChain_succ] at hnd hval ⊢
    by_cases hstop : cur = (pool.getD root default).parent
    · rw [if_pos hstop]
      rw [if_pos hstop] at hnd hval ⊢
      simp
    · rw [if_neg hstop]
      rw [if_neg hstop] at hnd hval ⊢
      cases cur with
      | none => simp
      | some k =>
        have hk : k < pool.length := hval k (List.mem_cons_self _ _)
        have hknotin : k ∉ ancestorChain root f (pool.getD k default).parent pool :=
          (List.nodup_cons.mp hnd).1
        have hnd' : (ancestorChain root f (pool.getD k default).parent pool).Nodup :=
          (List.nodup_cons.mp hnd).2
        have hchain := ancestorChain_set_n_in_flight root k
          ((pool.getD k default).n_in_flight - 1) f (pool.getD k default).parent pool
        have ihj := ih (pool.getD k default).parent
          (pool.set k { pool.getD k default with
            n_in_flight := (pool.getD k default).n_in_flight - 1 })
          (by rw [hchain]; exact hnd')
          (by
            rw [hchain]
            intro j' hj'
            rw [List.length_set]
            exact hval j' (List.mem_cons_of_mem _ hj'))
          j
        rw [hchain] at ihj
        rw [ihj]
        by_cases hjk : j = k
        · subst hjk
          rw [if_neg hknotin, getD_set_self _ _ _ _ hk]
          rw [if_pos (List.mem_cons_self _ _)]
        · rw [getD_set_ne _ _ _ _ _ (fun h => hjk h.symm)]
          by_cases hmem : j ∈ ancestorChain root f (pool.getD k default).parent pool
          · rw [if_pos hmem, if_pos (List.mem_cons_of_mem _ hmem)]
          · rw [if_neg hmem, if_neg (by
              intro hco
              rcases List.mem_cons.mp hco with h | h
              · exact hjk h
              · exact hmem h)]

theorem argmaxFold_spec {α : Type} (f : α → Rat) :
    ∀ (l : List α) (b0 : Rat) (x0 : α),
      (l.foldl (fun acc x => if acc.1 < f x then (f x, x) else acc) (b0, x0) = (b0, x0)
          ∧ ∀ x ∈ l, f x ≤ b0) ∨
      (∃ i : Fin l.length,
        l.foldl (fun acc x => if acc.1 < f x then (f x, x) else acc) (b0, x0)
          = (f (l.get i), l.get i) ∧
        b0 < f (l.get i) ∧
        (∀ j : Fin l.length, f (l.get j) ≤ f (l.get i)) ∧
        (∀ j : Fin l.length, (j : Nat) < (i : Nat) → f (l.get j) < f (l.get i))) := by
  intro l
  induction l with
  | nil =>
    intro b0 x0
    left
    exact ⟨rfl, by simp⟩
  | cons c rest ih =>
    intro b0 x0
    by_cases hc : b0 < f c
    · have hstep : (c :: rest).foldl (fun acc x => if acc.1 < f x then (f x, x) else acc) (b0, x0)
          = rest.foldl (fun acc x => if acc.1 < f x then (f x, x) else acc) (f c, c) := by
        simp [if_pos hc]
      rcases ih (f c) c with ⟨heq, hall⟩ | ⟨i, heq, hlt, hall, hstrict⟩
      · right
        refine ⟨⟨0, by simp⟩, ?_, hc, ?_, ?_⟩
        · rw [hstep, heq]
          rfl
        · rintro ⟨j, hj⟩
          cases j with
          | zero => exact le_refl _
          | succ jj => exact hall _ (rest.get_mem jj (by simpa using hj))
        · rintro ⟨j, hj⟩ hlt0
          simp at hlt0
      · right
        refine ⟨⟨i + 1, by simpa using i.isLt⟩, ?_, ?_, ?_, ?_⟩
        · rw [hstep, heq]
          simp
        · have hgoal : (List.get (c :: rest) ⟨(i : Nat) + 1, by simpa using i.isLt⟩) = rest.get i := by
            simp
          rw [hgoal]
          exact lt_trans hc hlt
        · rintro ⟨j, hj⟩
          have hgoal : (List.get (c :: rest) ⟨(i : Nat) + 1, by simpa using i.isLt⟩) = rest.get i := by
            simp
          rw [hgoal]
          cases j with
          | zero => simpa using le_of_lt hlt
          | succ jj => simpa using hall ⟨jj, by simpa using hj⟩
        · rintro ⟨j, hj⟩ hlt0
          have hgoal : (List.get (c :: rest) ⟨(i : Nat) + 1, by simpa using i.isLt⟩) = rest.get i := by
            simp
          rw [hgoal]
          cases j with
          | zero => simpa using hlt
          | succ jj =>
            have := hstrict ⟨jj, by simpa using hj⟩ (by simpa using hlt0)
            simpa using this
    · have hstep : (c :: rest).foldl (fun acc x => if acc.1 < f x then (f x, x) else acc) (b0, x0)
          = rest.foldl (fun acc x => if acc.1 < f x then (f x, x) else acc) (b0, x0) := by
        simp [if_neg hc]
      rcases ih b0 x0 with ⟨heq, hall⟩ | ⟨i, heq, hlt, hall, hstrict⟩
      · left
        refine ⟨hstep.trans heq, ?_⟩
        intro x hx
        rcases List.mem_cons.mp hx with rfl | hmem
        · exact not_lt.mp hc
        · exact hall x hmem
      · right
        have hcb : f c ≤ b0 := not_lt.mp hc
        refine ⟨⟨i + 1, by simpa using i.isLt⟩, ?_, ?_, ?_, ?_⟩
        · rw [hstep, heq]
          simp
        · have hgoal : (List.get (c :: rest) ⟨(i : Nat) + 1, by simpa using i.isLt⟩) = rest.get i := by
            simp
          rw [hgoal]
          exact hlt
        · rintro ⟨j, hj⟩
          have hgoal : (List.get (c :: rest) ⟨(i : Nat) + 1, by simpa using i.isLt⟩) = rest.get i := by
            simp
          rw [hgoal]
          cases j with
          | zero => simpa using le_of_lt (lt_of_le_of_lt hcb hlt)
          | succ jj => simpa using hall ⟨jj, by simpa using hj⟩
        · rintro ⟨j, hj⟩ hlt0
          have hgoal : (List.get (c :: rest) ⟨(i : Nat) + 1, by simpa using i.isLt⟩) = rest.get i := by
            simp
          rw [hgoal]
          cases j with
          | zero => simpa using lt_of_le_of_lt hcb hlt
          | succ jj =>
            have := hstrict ⟨jj, by simpa using hj⟩ (by simpa using hlt0)
            simpa using this

theorem reserveInc_getD (pool : NodePool) (i : Nat) (hi : i < pool.length) :
    (reserveInc pool i).getD i default
        = { pool.getD i default with
            n_in_flight := (pool.getD i default).n_in_flight + 1 } ∧
      ∀ j : Nat, j ≠ i → (reserveInc pool i).getD j default = pool.getD j default := by
  constructor
  · exact getD_set_self _ _ _ _ hi
  · intro j hj
    exact getD_set_ne _ _ _ _ _ (fun h => hj h.symm)

/-- C4: one iteration of the selector. When the current node is a leaf with
`n = 0` and `n_in_flight > 0` (reserved by another worker), the selector
returns the busy signal and decrements `n_in_flight` on every strict
ancestor up to and including the root, leaving the reserved node's own
`n_in_flight` unchanged; in every other case it increments `n_in_flight`
on the current node and either returns the node (no children) or descends
to the child with the highest PUCT score, the first among equals. -/
theorem pickStep_spec (factorOf : Nat → Rat) (root unwindFuel : Nat)
    (pool : NodePool) (i : Nat) (hi : i < pool.length) :
    (((pool.getD i default).n = 0 ∧ 0 < (pool.getD i default).n_in_flight) →
      (ancestorChain root unwindFuel (pool.getD i default).parent pool).Nodup →
      (∀ j ∈ ancestorChain root unwindFuel (pool.getD i default).parent pool,
        j < pool.length) →
      i ∉ ancestorChain root unwindFuel (pool.getD i default).parent pool →
      ∃ pool', pickStep factorOf root unwindFuel pool i = PickResult.busy pool' ∧
        (∀ j : Nat, pool'.getD j default =
          if j ∈ ancestorChain root unwindFuel (pool.getD i default).parent pool
          then { pool.getD j default with
                 n_in_flight := (pool.getD j default).n_in_flight - 1 }
          else pool.getD j default) ∧
        pool'.getD i default = pool.getD i default) ∧
    (¬((pool.getD i default).n = 0 ∧ 0 < (pool.getD i default).n_in_flight) →
      (pool.getD i default).children = [] →
      pickStep factorOf root unwindFuel pool i = PickResult.leaf (reserveInc pool i) i ∧
        (reserveInc pool i).getD i default
          = { pool.getD i default with
              n_in_flight := (pool.getD i default).n_in_flight + 1 } ∧
        (∀ j : Nat, j ≠ i → (reserveInc pool i).getD j default = pool.getD j default)) ∧
    (¬((pool.getD i default).n = 0 ∧ 0 < (pool.getD i default).n_in_flight) →
      (pool.getD i default).children ≠ [] →
      (∃ c ∈ (pool.getD i default).children,
        (-100 : Rat) < puctScore (factorOf (pool.getD i default).n) (reserveInc pool i) c) →
      ∃ k : Fin (pool.getD i default).children.length,
        pickStep factorOf root unwindFuel pool i
          = PickResult.descend (reserveInc pool i)
              ((pool.getD i default).children.get k) ∧
        (∀ j : Fin (pool.getD i default).children.length,
          puctScore (factorOf (pool.getD i default).n) (reserveInc pool i)
              ((pool.getD i default).children.get j)
            ≤ puctScore (factorOf (pool.getD i default).n) (reserveInc pool i)
              ((pool.getD i default).children.get k)) ∧
        (∀ j : Fin (pool.getD i default).children.length, (j : Nat) < (k : Nat) →
          puctScore (factorOf (pool.getD i default).n) (reserveInc pool i)
              ((pool.getD i default).children.get j)
            < puctScore (factorOf (pool.getD i default).n) (reserveInc pool i)
              ((pool.getD i default).children.get k)) ∧
        (reserveInc pool i).getD i default
          = { pool.getD i default with
              n_in_flight := (pool.getD i default).n_in_flight + 1 } ∧
        (∀ j : Nat, j ≠ i → (reserveInc pool i).getD j default = pool.getD j default)) := by
  refine ⟨?_, ?_, ?_⟩
  · intro hbusy hnd hval hself
    refine ⟨unwindInFlight root unwindFuel (pool.getD i default).parent pool, ?_, ?_, ?_⟩
    · simp only [pickStep, if_pos hbusy]
    · exact unwindInFlight_spec root unwindFuel (pool.getD i default).parent pool hnd hval
    · rw [unwindInFlight_spec root unwindFuel (pool.getD i default).parent pool hnd hval i,
        if_neg hself]
  · intro hbusy hch
    refine ⟨?_, (reserveInc_getD pool i hi).1, (reserveInc_getD pool i hi).2⟩
    simp only [pickStep, if_neg hbusy, if_pos hch]
  · intro hbusy hch hex
    rcases argmaxFold_spec
        (puctScore (factorOf (pool.getD i default).n) (reserveInc pool i))
        (pool.getD i default).children (-100) i with ⟨heq, hall⟩ | ⟨k, heq, hlt, hall, hstrict⟩
    · obtain ⟨c, hc, hcgt⟩ := hex
      exact absurd (hall c hc) (not_le.mpr hcgt)
    · refine ⟨k, ?_, hall, hstrict, (reserveInc_getD pool i hi).1, (reserveInc_getD pool i hi).2⟩
      simp only [pickStep, if_neg hbusy, if_neg hch, heq]

/-- Witness for C4 at a concrete two-node pool whose leaf (index 1) is
reserved by another worker: the busy path fires and the root's
`n_in_flight` is decremented. -/
theorem pickStep_spec_witness :
    ∃ pool', pickStep (fun _ => 0) 0 5
        [({ parent := none, children := [1], n := 1 } : PoolNode),
         { parent := some 0, n_in_flight := 1 }] 1 = PickResult.busy pool' ∧
      (∀ j : Nat, pool'.getD j default =
        if j ∈ ancestorChain 0 5
            (([({ parent := none, children := [1], n := 1 } : PoolNode),
               { parent := some 0, n_in_flight := 1 }].getD 1 default).parent)
            [({ parent := none, children := [1], n := 1 } : PoolNode),
             { parent := some 0, n_in_flight := 1 }]
        then { [({ parent := none, children := [1], n := 1 } : PoolNode),
               { parent := some 0, n_in_flight := 1 }].getD j default with
               n_in_flight :=
                 ([({ parent := none, children := [1], n := 1 } : PoolNode),
                   { parent := some 0, n_in_flight := 1 }].getD j default).n_in_flight - 1 }
        else [({ parent := none, children := [1], n := 1 } : PoolNode),
              { parent := some 0, n_in_flight := 1 }].getD j default) ∧
      pool'.getD 1 default
        = [({ parent := none, children := [1], n := 1 } : PoolNode),
           { parent := some 0, n_in_flight := 1 }].getD 1 default :=
  (pickStep_spec (fun _ => 0) 0 5
      [({ parent := none, children := [1], n := 1 } : PoolNode),
       { parent := some 0, n_in_flight := 1 }] 1 (by decide)).1
    (by decide) (by decide) (by decide) (by decide)

/-! ## C5: prefetch budget -/

theorem prefetchIntoCache_succ (factorOf : Nat → Rat) (aggressive : Bool) (f : Nat)
    (t : PFTree) (b : Int) :
    prefetchIntoCache factorOf aggressive (f + 1) t b =
      prefetchBody factorOf aggressive
        (fun c bb => prefetchIntoCache factorOf aggressive f c bb) t b := rfl

theorem prefetchIntoCache_nonpos (factorOf : Nat → Rat) (aggressive : Bool)
    (fuel : Nat) (t : PFTree) (b : Int) (hb : b ≤ 0) :
    prefetchIntoCache factorOf aggressive fuel t b = 0 := by
  cases fuel with
  | zero => rfl
  | succ f =>
    rw [prefetchIntoCache_succ]
    simp only [prefetchBody]
    rw [if_pos hb]

theorem prefetch_leaf_eval (b : Int) (hb : 0 < b) :
    prefetchIntoCache (fun _ => 0) false 1 (PFTree.mk {} []) b = 1 := by
  have h1 : prefetchIntoCache (fun _ => 0) false 1 (PFTree.mk {} []) b
      = prefetchBody (fun _ => 0) false
        (fun c bb => prefetchIntoCache (fun _ => 0) false 0 c bb)
        (PFTree.mk {} []) b := rfl
  rw [h1]
  simp only [prefetchBody, PFTree.stats, PFTree.children]
  rw [if_neg (by omega), if_pos (by norm_num)]
  rfl

theorem prefetch_two_leaves_eval :
    prefetchIntoCache (fun _ => 0) false 2
      (PFTree.mk { n := 1 } [PFTree.mk {} [], PFTree.mk {} []]) 4 = 2 := by
  have h1 : prefetchIntoCache (fun _ => 0) false 2
      (PFTree.mk { n := 1 } [PFTree.mk {} [], PFTree.mk {} []]) 4
      = prefetchBody (fun _ => 0) false
        (fun c bb => prefetchIntoCache (fun _ => 0) false 1 c bb)
        (PFTree.mk { n := 1 } [PFTree.mk {} [], PFTree.mk {} []]) 4 := rfl
  rw [h1]
  norm_num [prefetchBody, prefetchStep, PFTree.stats, PFTree.children, PFStats.computeU,
    PFStats.computeQ, chunkSortStep, sortScores, insertSorted, scorePairLe, ratTrunc,
    List.enum, List.enumFrom, List.range_succ, prefetch_leaf_eval]

theorem prefetch_four_leaves_eval :
    prefetchIntoCache (fun _ => 0) false 2
      (PFTree.mk { n := 1 }
        [PFTree.mk {} [], PFTree.mk {} [], PFTree.mk {} [], PFTree.mk {} []]) 4 = 4 := by
  have h1 : prefetchIntoCache (fun _ => 0) false 2
      (PFTree.mk { n := 1 }
        [PFTree.mk {} [], PFTree.mk {} [], PFTree.mk {} [], PFTree.mk {} []]) 4
      = prefetchBody (fun _ => 0) false
        (fun c bb => prefetchIntoCache (fun _ => 0) false 1 c bb)
        (PFTree.mk { n := 1 }
          [PFTree.mk {} [], PFTree.mk {} [], PFTree.mk {} [], PFTree.mk {} []]) 4 := rfl
  rw [h1]
  norm_num [prefetchBody, prefetchStep, PFTree.stats, PFTree.children, PFStats.computeU,
    PFStats.computeQ, chunkSortStep, sortScores, insertSorted, scorePairLe, ratTrunc,
    List.enum, List.enumFrom, List.range_succ, prefetch_leaf_eval]

/-- Counterexample to C5 as stated: on this tree (root with two internal
children, the first with two unvisited leaves, the second with four, all
scores equal under cpuct = 0) a call with budget 4 spends and returns 6.
The first child is scanned with `budget_to_spend = 4` and spends 2; the
last child then reuses the previous `budget_to_spend` of 4 rather than the
remaining budget of 2, and spends 4. -/
theorem prefetch_budget_counterexample :
    prefetchIntoCache (fun _ => 0) false 3
        (PFTree.mk { n := 1 }
          [PFTree.mk { n := 1 } [PFTree.mk {} [], PFTree.mk {} []],
           PFTree.mk { n := 1 }
             [PFTree.mk {} [], PFTree.mk {} [], PFTree.mk {} [], PFTree.mk {} []]]) 4
      = 6 ∧
    ¬(prefetchIntoCache (fun _ => 0) false 3
        (PFTree.mk { n := 1 }
          [PFTree.mk { n := 1 } [PFTree.mk {} [], PFTree.mk {} []],
           PFTree.mk { n := 1 }
             [PFTree.mk {} [], PFTree.mk {} [], PFTree.mk {} [], PFTree.mk {} []]]) 4
      ≤ 4) := by
  have h1 : prefetchIntoCache (fun _ => 0) false 3
      (PFTree.mk { n := 1 }
        [PFTree.mk { n := 1 } [PFTree.mk {} [], PFTree.mk {} []],
         PFTree.mk { n := 1 }
           [PFTree.mk {} [], PFTree.mk {} [], PFTree.mk {} [], PFTree.mk {} []]]) 4
      = prefetchBody (fun _ => 0) false
        (fun c bb => prefetchIntoCache (fun _ => 0) false 2 c bb)
        (PFTree.mk { n := 1 }
          [PFTree.mk { n := 1 } [PFTree.mk {} [], PFTree.mk {} []],
           PFTree.mk { n := 1 }
             [PFTree.mk {} [], PFTree.mk {} [], PFTree.mk {} [], PFTree.mk {} []]]) 4 := rfl
  have h2 : prefetchIntoCache (fun _ => 0) false 3
      (PFTree.mk { n := 1 }
        [PFTree.mk { n := 1 } [PFTree.mk {} [], PFTree.mk {} []],
         PFTree.mk { n := 1 }
           [PFTree.mk {} [], PFTree.mk {} [], PFTree.mk {} [], PFTree.mk {} []]]) 4 = 6 := by
    rw [h1]
    norm_num [prefetchBody, prefetchStep, PFTree.stats, PFTree.children, PFStats.computeU,
      PFStats.computeQ, chunkSortStep, sortScores, insertSorted, scorePairLe, ratTrunc,
      List.enum, List.enumFrom, List.range_succ,
      prefetch_two_leaves_eval, prefetch_four_leaves_eval]
  exact ⟨h2, by rw [h2]; norm_num⟩

theorem prefetchStep_inv (recurse : PFTree → Int → Int) (t : PFTree) (factor : Rat)
    (len : Nat) (b K : Int) (hK : 0 ≤ K)
    (hrn : ∀ c bb, 0 ≤ recurse c bb)
    (hrz : ∀ c bb, bb ≤ 0 → recurse c bb = 0)
    (hrb : ∀ c bb, 1 ≤ bb → recurse c bb ≤ K * (bb - 1) + 1)
    (hb : 1 ≤ b) (acc : PrefetchAcc) (i : Nat)
    (h1 : acc.total = b - acc.budget) (h2 : acc.bts ≤ b) (h3 : 0 ≤ acc.total)
    (h4 : 1 ≤ acc.budget ∨ acc.total ≤ (K + 1) * (b - 1) + 1) :
    (prefetchStep recurse t factor len acc i).total
        = b - (prefetchStep recurse t factor len acc i).budget ∧
      (prefetchStep recurse t factor len acc i).bts ≤ b ∧
      0 ≤ (prefetchStep recurse t factor len acc i).total ∧
      (1 ≤ (prefetchStep recurse t factor len acc i).budget ∨
        (prefetchStep recurse t factor len acc i).total ≤ (K + 1) * (b - 1) + 1) := by
  by_cases h0 : acc.budget ≤ 0
  · simp only [prefetchStep, if_pos h0]
    exact ⟨h1, h2, h3, h4⟩
  · have hble : acc.budget ≤ b := by omega
    have key : ∀ (c : PFTree) (acc2 : PrefetchAcc),
        acc2.budget = acc.budget → acc2.total = acc.total → acc2.bts ≤ b →
        (acc2.total + recurse c acc2.bts = b - (acc2.budget - recurse c acc2.bts)) ∧
          acc2.bts ≤ b ∧ 0 ≤ acc2.total + recurse c acc2.bts ∧
          (1 ≤ acc2.budget - recurse c acc2.bts ∨
            acc2.total + recurse c acc2.bts ≤ (K + 1) * (b - 1) + 1) := by
      intro c acc2 e1 e2 e3
      have hs0 : 0 ≤ recurse c acc2.bts := hrn c acc2.bts
      have hprod : (0 : Int) ≤ K * (b - 1) := mul_nonneg hK (by omega)
      have hsb : recurse c acc2.bts ≤ K * (b - 1) + 1 := by
        by_cases hbts : 1 ≤ acc2.bts
        · have hstep1 : recurse c acc2.bts ≤ K * (acc2.bts - 1) + 1 := hrb c _ hbts
          have hstep2 : K * (acc2.bts - 1) ≤ K * (b - 1) :=
            mul_le_mul_of_nonneg_left (by omega) hK
          linarith
        · rw [hrz c _ (by omega)]
          linarith
      refine ⟨by omega, e3, by rw [e2]; omega, ?_⟩
      by_cases hrem : 1 ≤ acc2.budget - recurse c acc2.bts
      · exact Or.inl hrem
      · right
        have htot : acc2.total = b - acc2.budget := by rw [e1, e2]; exact h1
        have h1' : 1 ≤ acc2.budget := by rw [e1]; omega
        have expand : (K + 1) * (b - 1) + 1 = K * (b - 1) + 1 + (b - 1) := by ring
        rw [expand]
        linarith
    simp only [prefetchStep, if_neg h0]
    split_ifs <;>
      first
        | exact key _ _ rfl rfl (le_trans (min_le_left _ _) hble)
        | exact key _ _ rfl rfl hble
        | exact key _ _ rfl rfl h2

theorem prefetchFold_bound (recurse : PFTree → Int → Int) (t : PFTree) (factor : Rat)
    (len : Nat) (K b : Int) (hK : 0 ≤ K)
    (hrn : ∀ c bb, 0 ≤ recurse c bb)
    (hrz : ∀ c bb, bb ≤ 0 → recurse c bb = 0)
    (hrb : ∀ c bb, 1 ≤ bb → recurse c bb ≤ K * (bb - 1) + 1)
    (hb : 1 ≤ b) (l : List Nat) (init : PrefetchAcc)
    (hinit : init.total = b - init.budget ∧ init.bts ≤ b ∧ 0 ≤ init.total ∧
      (1 ≤ init.budget ∨ init.total ≤ (K + 1) * (b - 1) + 1)) :
    0 ≤ (l.foldl (prefetchStep recurse t factor len) init).total ∧
      (l.foldl (prefetchStep recurse t factor len) init).total ≤ (K + 1) * (b - 1) + 1 := by
  have h := foldlInv (fun acc : PrefetchAcc =>
      acc.total = b - acc.budget ∧ acc.bts ≤ b ∧ 0 ≤ acc.total ∧
        (1 ≤ acc.budget ∨ acc.total ≤ (K + 1) * (b - 1) + 1))
    (prefetchStep recurse t factor len) l init hinit
    (fun acc i _ hp =>
      prefetchStep_inv recurse t factor len b K hK hrn hrz hrb hb acc i
        hp.1 hp.2.1 hp.2.2.1 hp.2.2.2)
  obtain ⟨p1, p2, p3, p4⟩ := h
  refine ⟨p3, ?_⟩
  rcases p4 with hbud | hdone
  · have hfac : 1 * (b - 1) ≤ (K + 1) * (b - 1) :=
      mul_le_mul_of_nonneg_right (by omega) (by omega)
    have : (l.foldl (prefetchStep recurse t factor len) init).total ≤ b - 1 := by omega
    linarith
  · exact hdone

/-- C5 (amended): the total budget spent (the returned value) is nonnegative
but can exceed the caller's budget B; what holds is the bound
spent ≤ d * (B - 1) + 1 for every B ≥ 1, where d is the recursion-depth
bound (`fuel`, at least the height of the prefetched subtree). The
overshoot comes precisely from the last child re-using the previous
child's allotment. -/
theorem prefetchIntoCache_spend_bound (factorOf : Nat → Rat) (aggressive : Bool) :
    ∀ (fuel : Nat) (t : PFTree) (b : Int),
      0 ≤ prefetchIntoCache factorOf aggressive fuel t b ∧
        (1 ≤ b → prefetchIntoCache factorOf aggressive fuel t b
          ≤ (fuel : Int) * (b - 1) + 1) := by
  intro fuel
  induction fuel with
  | zero =>
    intro t b
    refine ⟨le_refl 0, fun hb => ?_⟩
    rw [show prefetchIntoCache factorOf aggressive 0 t b = 0 from rfl]
    simp
  | succ f ih =>
    intro t b
    rw [prefetchIntoCache_succ]
    simp only [prefetchBody]
    by_cases hb0 : b ≤ 0
    · rw [if_pos hb0]
      exact ⟨le_refl 0, fun hb => absurd hb (by omega)⟩
    · rw [if_neg hb0]
      have hb : 1 ≤ b := by omega
      have hprod : (0 : Int) ≤ ((f : Int) + 1) * (b - 1) :=
        mul_nonneg (by positivity) (by omega)
      have hcast : ((f : Int) + 1) = (((f + 1 : Nat)) : Int) := by push_cast; ring
      by_cases hleaf : (t.stats.n : Int) + t.stats.n_in_flight = 0
      · rw [if_pos hleaf]
        split_ifs <;> refine ⟨by norm_num, fun _ => ?_⟩ <;> rw [← hcast] <;> linarith
      · rw [if_neg hleaf]
        by_cases hempty : t.children.isEmpty
        · rw [if_pos hempty]
          refine ⟨le_refl 0, fun _ => ?_⟩
          rw [← hcast]
          linarith
        · rw [if_neg hempty]
          have hfold := prefetchFold_bound
            (fun c bb => prefetchIntoCache factorOf aggressive f c bb) t
            (factorOf t.stats.n)
            (t.children.enum.map
              (fun ic => (factorOf t.stats.n * ic.2.stats.computeU
                + ic.2.stats.computeQ, ic.1))).length
            (f : Int) b (by positivity)
            (fun c bb => (ih c bb).1)
            (fun c bb hbb => prefetchIntoCache_nonpos factorOf aggressive f c bb hbb)
            (fun c bb hbb => (ih c bb).2 hbb)
            hb
            (List.range (t.children.enum.map
              (fun ic => (factorOf t.stats.n * ic.2.stats.computeU
                + ic.2.stats.computeQ, ic.1))).length)
            { scores := t.children.enum.map
                (fun ic => (factorOf t.stats.n * ic.2.stats.computeU
                  + ic.2.stats.computeQ, ic.1)),
              fu := 0, budget := b, bts := b, total := 0 }
            ⟨by simp, le_refl b, le_refl 0, Or.inl hb⟩
          refine ⟨hfold.1, fun _ => ?_⟩
          rw [← hcast]
          exact hfold.2

/-- Witness for the amended C5 bound at a concrete input (the counterexample
tree itself: 6 ≤ 3 * (4 - 1) + 1). -/
theorem prefetchIntoCache_spend_bound_witness :
    0 ≤ prefetchIntoCache (fun _ => 0) false 3
        (PFTree.mk { n := 1 }
          [PFTree.mk { n := 1 } [PFTree.mk {} [], PFTree.mk {} []],
           PFTree.mk { n := 1 }
             [PFTree.mk {} [], PFTree.mk {} [], PFTree.mk {} [], PFTree.mk {} []]]) 4 ∧
      prefetchIntoCache (fun _ => 0) false 3
        (PFTree.mk { n := 1 }
          [PFTree.mk { n := 1 } [PFTree.mk {} [], PFTree.mk {} []],
           PFTree.mk { n := 1 }
             [PFTree.mk {} [], PFTree.mk {} [], PFTree.mk {} [], PFTree.mk {} []]]) 4
        ≤ (3 : Int) * (4 - 1) + 1 := by
  have h := prefetchIntoCache_spend_bound (fun _ => 0) false 3
    (PFTree.mk { n := 1 }
      [PFTree.mk { n := 1 } [PFTree.mk {} [], PFTree.mk {} []],
       PFTree.mk { n := 1 }
         [PFTree.mk {} [], PFTree.mk {} [], PFTree.mk {} [], PFTree.mk {} []]]) 4
  exact ⟨h.1, by simpa using h.2 (by norm_num)⟩
